import Mathlib

set_option linter.unusedVariables false

/-!
Verification of the AI Suggestion Lifecycle Engine of the `mvp` writing app.

The development shallowly embeds the relevant source code:

* `src/unnamed/part_002` (the streaming source adapter `generateContinuationStream`
  / `modifyTextStream` wrapping the Gemini API): its whitespace cleaning
  `.replace(/[\r\n]+/g, " ").replace(/\s{2,}/g, " ")` and its character-by-character
  emission are modelled by `cleanChunk` and `streamEmission`.
* `src/src/components/Editor/Editor.tsx`: the session refs
  (`aiTextStartPosRef`, `lastInsertedLengthRef`, `isReplacingSelectionRef`,
  `originalTextRef`), the `useEffect[apiText]` streaming insertion, and the
  handlers `handleAccept`, `handleReject`, `handleModify`,
  `handleSelectionAiAction`.

The ProseMirror document is modelled as a list of attributed characters of a
single-paragraph document (the shape the editor itself creates): text position
`p` (1-based, as in ProseMirror, where position 0 is the paragraph-open token)
corresponds to list index `p - 1`, and `doc.content.size - 1` is
`length + 1`, the position just after the last character.
-/

namespace Mvp

/-- The JavaScript `\s` character class (the characters matched by the
whitespace regexes in `src/unnamed/part_002` lines 68-70/117-119 and
`Editor.tsx` line 339). -/
def isJSWhitespace (c : Char) : Bool :=
  c = ' ' || c = '\t' || c = '\n' || c = '\r' || c = '\x0b' || c = '\x0c' ||
  c = ' ' || c = ' ' || (0x2000 ≤ c.toNat && c.toNat ≤ 0x200A) ||
  c = ' ' || c = ' ' || c = ' ' || c = ' ' ||
  c = '　' || c = '﻿'

/-- The characters matched by `[\r\n]` in the first replace. -/
def isNewlineChar (c : Char) : Bool :=
  c = '\r' || c = '\n'

/-- Replace1, i.e. `s.replace(/[\r\n]+/g, " ")`, as a left-to-right scan: each maximal run of
newline characters is replaced by a single space.  The boolean argument
records whether the scan is currently inside a newline run. -/
def squashNewlineRuns : Bool → List Char → List Char
  | _, [] => []
  | inRun, c :: rest =>
    if isNewlineChar c then
      if inRun then squashNewlineRuns true rest
      else ' ' :: squashNewlineRuns true rest
    else c :: squashNewlineRuns false rest

/-- Scanner state for `.replace(/\s{2,}/g, " ")`: outside a whitespace run,
inside a run that so far has exactly one character `w`, or inside a run of
two or more characters. -/
inductive WSRun where
  | noRun : WSRun
  | one : Char → WSRun
  | many : WSRun

/-- Replace2, i.e. `s.replace(/\s{2,}/g, " ")`, as a left-to-right scan: each maximal run of
two or more whitespace characters is replaced by a single space; a lone
whitespace character is kept as it is. -/
def squashWSRuns : WSRun → List Char → List Char
  | .noRun, [] => []
  | .one w, [] => [w]
  | .many, [] => [' ']
  | .noRun, c :: rest =>
    if isJSWhitespace c then squashWSRuns (.one c) rest
    else c :: squashWSRuns .noRun rest
  | .one w, c :: rest =>
    if isJSWhitespace c then squashWSRuns .many rest
    else w :: c :: squashWSRuns .noRun rest
  | .many, c :: rest =>
    if isJSWhitespace c then squashWSRuns .many rest
    else ' ' :: c :: squashWSRuns .noRun rest

/-- The composite cleaning `chunkText.replace(/[\r\n]+/g, " ").replace(/\s{2,}/g, " ")`
applied to every chunk by `generateContinuationStream` (part_002 lines 68-70),
`modifyTextStream` (part_002 lines 117-119) and to every streamed delta by the
editor (`Editor.tsx` line 339). -/
def cleanChunk (s : String) : String :=
  ⟨squashWSRuns .noRun (squashNewlineRuns false s.data)⟩

/-- A list of characters with no two adjacent JS-whitespace characters;
`checkGap` checks the junction between one character and the next. -/
def checkGap (c : Char) : List Char → Bool
  | [] => true
  | d :: _ => !(isJSWhitespace c && isJSWhitespace d)

/-- No two adjacent whitespace characters anywhere in the list. -/
def noTwoAdjacentWS : List Char → Bool
  | [] => true
  | c :: rest => checkGap c rest && noTwoAdjacentWS rest

/-- A `WSRun` state is acceptable when any character it stores is not a
newline (used to show cleaning never re-introduces newlines). -/
def wsStateNoNewline : WSRun → Bool
  | .one w => !isNewlineChar w
  | _ => true

/-! ## The streaming source adapter (`src/unnamed/part_002`) -/

/-- One fragment as yielded by the adapter generators: a single character
(`for (const char of cleaned) yield char`). -/
def charFragment (c : Char) : String := String.mk [c]

/-- The sequence of fragments emitted by `generateContinuationStream`
(part_002 lines 64-77) for the chunk texts delivered by the remote stream:
empty chunks are skipped (`if (chunkText)`), every chunk is cleaned by the
two regex replaces, and the cleaned text is yielded character by character,
in order.  The 5 ms pacing delay is cosmetic and not modelled. -/
def streamEmission (chunks : List String) : List String :=
  (chunks.filter (fun c => c ≠ "")).flatMap
    (fun c => (cleanChunk c).data.map charFragment)

/-- Fragment sequence of `generateContinuationStream` (part_002 lines 64-77).
On an error the generator logs and rethrows (lines 78-81); fragments yielded
before the error stay delivered, which is modelled by pairing the emission of
the chunks received so far with the failure it rethrows. -/
def generateContinuationStream (chunks : List String) (failure : Option String) :
    List String × Option String :=
  (streamEmission chunks, failure)

/-- Fragment sequence of `modifyTextStream` (part_002 lines 99-131); the
cleaning and per-character emission are identical to
`generateContinuationStream`. -/
def modifyTextStream (chunks : List String) (failure : Option String) :
    List String × Option String :=
  (streamEmission chunks, failure)

/-- The normalization described by the spec sentence, following its words:
every maximal run of whitespace characters (newline runs included) is
collapsed to a single space — also a run consisting of one single
non-space whitespace character.  Used only to compare the spec's wording
with the source's cleaning. -/
def specNormalize : Bool → List Char → List Char
  | _, [] => []
  | inRun, c :: rest =>
    if isJSWhitespace c then
      if inRun then specNormalize true rest else ' ' :: specNormalize true rest
    else c :: specNormalize false rest

/-! ## The document model

The editor initializes a ProseMirror document consisting of a single
paragraph of text (`Editor.tsx` lines 219-223) and inserts plain text nodes
into it.  Such a document is modelled as a list of attributed characters:
ProseMirror text position `p` corresponds to list index `p - 1` (position 0
is the opening token of the paragraph), and `doc.content.size` is
`length + 2`, so `doc.content.size - 1` — the position used by the accept /
reject / modify handlers — is `length + 1`, the position just after the last
character. -/

/-- One character of the rich-text document together with its `em` (italic)
mark — the mark the editor uses as the "generated" visual attribute
(`Editor.tsx` lines 353-354). -/
structure ACh where
  ch : Char
  em : Bool
deriving DecidableEq, Repr

/-- A single-paragraph rich-text document. -/
abbrev RTDoc := List ACh

/-- Plain text of the document (`doc.textContent`). -/
def plainText (d : RTDoc) : String := ⟨d.map (fun pc => pc.ch)⟩

/-- Text carrying the `em` ("generated") mark, as inserted by
`schema.text(newChunk, [emMark])`. -/
def emText (s : String) : RTDoc := s.data.map (fun c => ⟨c, true⟩)

/-- Unmarked text, as inserted by `schema.text(originalTextRef.current)`. -/
def plainDoc (s : String) : RTDoc := s.data.map (fun c => ⟨c, false⟩)

/-- Clear the `em` mark of one character. -/
def clearEm (pc : ACh) : ACh := { pc with em := false }

/-- The value `doc.content.size - 1` of the single-paragraph document: the position
just after the last character. -/
def docEndPos (d : RTDoc) : Nat := d.length + 1

/-- Model of `tr.insert(pos, content)`: insert content at text position `pos`
(list index `pos - 1`). -/
def insertContent (pos : Nat) (cs : RTDoc) (d : RTDoc) : RTDoc :=
  d.take (pos - 1) ++ cs ++ d.drop (pos - 1)

/-- Model of `tr.delete(a, b)`: delete the half-open position range `[a, b)`
(list indices `[a - 1, b - 1)`).  Written with a double `drop` so that the
two pieces always re-assemble; for valid positions `1 ≤ a ≤ b` this is
exactly ProseMirror's deletion. -/
def deleteRange (a b : Nat) (d : RTDoc) : RTDoc :=
  d.take (a - 1) ++ (d.drop (a - 1)).drop (b - a)

/-- Model of `tr.removeMark(a, b, em)`: clear the `em` mark on the half-open position
range `[a, b)` without touching the characters. -/
def removeEmRange (a b : Nat) (d : RTDoc) : RTDoc :=
  d.take (a - 1) ++ ((d.drop (a - 1)).take (b - a)).map clearEm ++
    (d.drop (a - 1)).drop (b - a)

/-- Model of `doc.textBetween(a, b)`: the plain text of the position range `[a, b)`. -/
def textBetween (a b : Nat) (d : RTDoc) : String :=
  ⟨((d.drop (a - 1)).take (b - a)).map (fun pc => pc.ch)⟩

/-! ## The editor session state (`Editor.tsx`)

`selectionRangeRef` is stored and cleared by the handlers but never read by
any of them, so it is not part of the model. -/

/-- The state the streaming-insertion engine keeps in the `Editor` component:
the document (with the current selection `[selFrom, selTo)`; a collapsed
selection has `selFrom = selTo`) and the session refs. -/
structure EditorSt where
  doc : RTDoc
  aiTextStartPos : Option Nat
  lastInsertedLength : Nat
  isReplacingSelection : Bool
  originalText : String
  selFrom : Nat
  selTo : Nat
deriving DecidableEq, Repr

/-- One run of the `useEffect[apiText]` body (`Editor.tsx` lines 326-369) for
a newly arrived delta `raw = apiText.slice(lastInsertedLengthRef.current)`:
the delta is cleaned by the same two regex replaces as in the adapter
(line 339); if the cleaned chunk is non-empty it is inserted with the `em`
mark at `insertPos + L - (L > 0 ? L : 0)` where
`insertPos = aiTextStartPos + L` (or the selection start when the anchor is
not yet set, in which case the anchor is established there); finally
`lastInsertedLengthRef` is advanced to `apiText.length`, i.e. by the raw
delta's length. -/
def appendApiChunk (raw : String) (s : EditorSt) : EditorSt :=
  let newChunk := cleanChunk raw
  if newChunk ≠ "" then
    let insertPos : Nat :=
      match s.aiTextStartPos with
      | some p => p + s.lastInsertedLength
      | none => s.selFrom
    let startPos : Option Nat :=
      match s.aiTextStartPos with
      | some p => some p
      | none => some insertPos
    let effPos : Nat := insertPos + s.lastInsertedLength -
      (if 0 < s.lastInsertedLength then s.lastInsertedLength else 0)
    { s with
      doc := insertContent effPos (emText newChunk) s.doc
      aiTextStartPos := startPos
      lastInsertedLength := s.lastInsertedLength + raw.length }
  else
    { s with lastInsertedLength := s.lastInsertedLength + raw.length }

/-- Fold a sequence of arrived deltas into the state. -/
def applyChunks (fs : List String) (s : EditorSt) : EditorSt :=
  fs.foldl (fun s f => appendApiChunk f s) s

/-- The `useEffect[apiText]` branch for `apiText` becoming `null`
(`Editor.tsx` lines 327-333): reset `lastInsertedLengthRef`, keep
`aiTextStartPosRef` ("we need it for modifying"). -/
def resetApiText (s : EditorSt) : EditorSt :=
  { s with lastInsertedLength := 0 }

/-- Handler `handleAccept` (`Editor.tsx` lines 372-391): if the anchor is set,
remove the `em` mark from `[startPos, doc.content.size - 1)`; then reset
`aiTextStartPosRef`, `isReplacingSelectionRef` and `originalTextRef`
(`lastInsertedLengthRef` is not touched by this handler). -/
def handleAccept (s : EditorSt) : EditorSt :=
  let s1 :=
    match s.aiTextStartPos with
    | some startPos =>
      { s with doc := removeEmRange startPos (docEndPos s.doc) s.doc }
    | none => s
  { s1 with aiTextStartPos := none, isReplacingSelection := false,
            originalText := "" }

/-- Handler `handleReject` (`Editor.tsx` lines 394-420): if the anchor is set, delete
`[startPos, doc.content.size - 1)` and, when a selection was being replaced
and the remembered original text is non-empty, re-insert it unmarked at
`startPos`; then reset all session refs. -/
def handleReject (s : EditorSt) : EditorSt :=
  let s1 :=
    match s.aiTextStartPos with
    | some startPos =>
      let d1 := deleteRange startPos (docEndPos s.doc) s.doc
      let d2 := if s.isReplacingSelection ∧ s.originalText ≠ "" then
          insertContent startPos (plainDoc s.originalText) d1
        else d1
      { s with doc := d2 }
    | none => s
  { s1 with aiTextStartPos := none, lastInsertedLength := 0,
            isReplacingSelection := false, originalText := "" }

/-- Handler `handleModify` (`Editor.tsx` lines 423-439): if the anchor is set, delete
`[startPos, doc.content.size - 1)` and reset `lastInsertedLengthRef` to 0,
keeping the anchor ("aiTextStartPosRef stays at the same position for new AI
text"); with no anchor, nothing is changed. -/
def handleModify (s : EditorSt) : EditorSt :=
  match s.aiTextStartPos with
  | some startPos =>
    { s with doc := deleteRange startPos (docEndPos s.doc) s.doc,
             lastInsertedLength := 0 }
  | none => s

/-- Handler `handleSelectionAiAction` (`Editor.tsx` lines 442-468): when the tracked
selected text is non-empty, remember the selection's text for restoration,
mark the session as replacing a selection, delete the selected range in one
transaction, collapse the cursor to the deletion point, set the anchor
there and reset `lastInsertedLengthRef`. -/
def handleSelectionAiAction (s : EditorSt) : EditorSt :=
  let selectedText := textBetween s.selFrom s.selTo s.doc
  if selectedText ≠ "" then
    { s with
      isReplacingSelection := true
      originalText := selectedText
      doc := deleteRange s.selFrom s.selTo s.doc
      selTo := s.selFrom
      aiTextStartPos := some s.selFrom
      lastInsertedLength := 0 }
  else s

/-! ## The session lifecycle as an event system

The editor's session state changes on these discrete events: a streamed
delta arriving (`useEffect[apiText]`), the accept / reject / modify
handlers, an AI action on a selection, `apiText` becoming `null`, and a
user edit (which replaces document and selection but touches none of the
session refs).

For `accept`, `reject` and `modifyIntent` the editor handler runs and then —
modelled from the spec, since the Lifecycle State Machine
(`src/machines/editorMachine.ts`, imported by `App.tsx`) is not among the
sources — the machine retains no generated text outside an active stream, so
`apiText` becomes `null` and the effect's reset branch
(`Editor.tsx` lines 327-333) runs. -/
inductive Ev where
  | chunk (raw : String)
  | accept
  | reject
  | modifyIntent
  | selectAi
  | reset
  | userEdit (d : RTDoc) (f t : Nat)

/-- One step of the editor state under an event. -/
def stepEd : Ev → EditorSt → EditorSt
  | .chunk raw, s => appendApiChunk raw s
  | .accept, s => resetApiText (handleAccept s)
  | .reject, s => resetApiText (handleReject s)
  | .modifyIntent, s => resetApiText (handleModify s)
  | .selectAi, s => handleSelectionAiAction s
  | .reset, s => resetApiText s
  | .userEdit d f t, s => { s with doc := d, selFrom := f, selTo := t }

/-- A freshly mounted editor: no session refs set. -/
def initSt (d : RTDoc) (f t : Nat) : EditorSt :=
  { doc := d, aiTextStartPos := none, lastInsertedLength := 0,
    isReplacingSelection := false, originalText := "", selFrom := f,
    selTo := t }

/-- The editor states reachable from a fresh mount by any event sequence. -/
inductive Reachable : EditorSt → Prop where
  | init (d : RTDoc) (f t : Nat) : Reachable (initSt d f t)
  | step (ev : Ev) (s : EditorSt) : Reachable s → Reachable (stepEd ev s)

/-! ## The accumulated shape of a streaming session -/

/-- Concatenation, in order, of a list of fragments. -/
def joinAll (fs : List String) : String := fs.foldr (fun a b => a ++ b) ""

/-- The state of a session that started over document `d0` with anchor `p`
and has accumulated exactly the text `acc`: the anchor is set, the emitted
counter equals the accumulated length, and the accumulated text sits
`em`-marked at the anchor. -/
def SessionShape (d0 : RTDoc) (p : Nat) (acc : String) (s : EditorSt) : Prop :=
  s.aiTextStartPos = some p ∧
  s.lastInsertedLength = acc.length ∧
  s.doc = d0.take (p - 1) ++ emText acc ++ d0.drop (p - 1) ∧
  1 ≤ p ∧ p - 1 ≤ d0.length

/-- The spec's own example state for C1: document "hello world", all of it
selected. -/
def c1St : EditorSt := initSt (plainDoc "hello world") 1 12

/-- State for the C2 counterexample: fresh editor over an empty document. -/
def c2St : EditorSt := initSt [] 1 1

/-- Fresh editor state for the C2 witness. -/
def c2wSt : EditorSt := initSt [] 1 1

/-- State for the C3 witness: a completed session anchored at position 10
("123456789" precedes it), having accumulated "OLD". -/
def c3St : EditorSt :=
  { doc := plainDoc "123456789" ++ emText "OLD", aiTextStartPos := some 10,
    lastInsertedLength := 3, isReplacingSelection := false,
    originalText := "", selFrom := 1, selTo := 1 }

/-- State for the C4 witness: a session anchored at 1 with 2 characters
already inserted. -/
def c4St : EditorSt :=
  { doc := emText "hi", aiTextStartPos := some 1, lastInsertedLength := 2,
    isReplacingSelection := false, originalText := "", selFrom := 3,
    selTo := 3 }

/-- State for the C5 counterexample: a session that inserted "ab"
(positions 1-2), followed by one user-italicised character 'c' at
position 3 — outside the session's range `[1, 3)`. -/
def c5St : EditorSt :=
  { doc := emText "ab" ++ [⟨'c', true⟩], aiTextStartPos := some 1,
    lastInsertedLength := 2, isReplacingSelection := false,
    originalText := "", selFrom := 4, selTo := 4 }

/-- State for the C5 witness: a session anchored at 2 with one inserted
character. -/
def c5wSt : EditorSt :=
  { doc := plainDoc "x" ++ emText "y", aiTextStartPos := some 2,
    lastInsertedLength := 1, isReplacingSelection := false,
    originalText := "", selFrom := 3, selTo := 3 }

/-- State for the C6 witness. -/
def c6St : EditorSt := initSt (plainDoc "abcdef") 2 6

/-- State for the C7 counterexample. -/
def c7St : EditorSt := initSt (plainDoc "hello world") 1 12

/-- State for the C7 witness: an anchored session. -/
def c7wSt : EditorSt :=
  { doc := emText "x", aiTextStartPos := some 5, lastInsertedLength := 1,
    isReplacingSelection := false, originalText := "", selFrom := 2,
    selTo := 2 }

/-- The Lifecycle Mode of the suggestion state machine. -/
inductive Mode where
  | idle
  | streaming
  | pendingDecision
  | modifying
deriving DecidableEq, Repr

/-- Editor state together with the machine's mode and surfaced error. -/
structure SysSt where
  ed : EditorSt
  mode : Mode
  error : Option String
deriving DecidableEq, Repr

/-- Modelled from the spec: the Suggestion Lifecycle State Machine
(`editorMachine`, imported by `App.tsx` from `./machines/editorMachine`) is
not among the sources under `src/`.  Per the spec's transition table, when
the stream fails while streaming the machine surfaces the error as a
reportable, non-fatal error and returns to `idle`; it issues no document
edit, matching the sources, where the document is only ever mutated by the
Editor's insertion effect and its accept / reject / modify / selection
handlers, and where `generateContinuationStream` rethrows the failure after
the already-yielded fragments were delivered (part_002 lines 78-81). -/
def streamFail (msg : String) (sys : SysSt) : SysSt :=
  { sys with mode := .idle, error := some msg }

/-- System state for the C8 witness: streaming, one fragment "hi"
inserted into an initially empty document. -/
def c8Sys : SysSt :=
  { ed := { doc := emText "hi", aiTextStartPos := some 1,
            lastInsertedLength := 2, isReplacingSelection := false,
            originalText := "", selFrom := 1, selTo := 1 },
    mode := .streaming, error := none }

/-- The output of `squashNewlineRuns` contains no newline characters. -/
theorem squashNewlineRuns_no_newline (l : List Char) (b : Bool) :
    (squashNewlineRuns b l).all (fun c => !isNewlineChar c) = true := by
  induction l generalizing b with
  | nil => simp [squashNewlineRuns]
  | cons c rest ih =>
    by_cases h : isNewlineChar c = true
    · cases b with
      | true => simpa [squashNewlineRuns, h] using ih true
      | false =>
        have hih := ih true
        simp [squashNewlineRuns, h, hih, (by decide : isNewlineChar ' ' = false)]
    · cases b <;>
        · have hih := ih false
          simp [squashNewlineRuns, h, hih]

/-- The scan `squashWSRuns` preserves newline-freedom. -/
theorem squashWSRuns_no_newline (l : List Char) (st : WSRun)
    (hl : l.all (fun c => !isNewlineChar c) = true)
    (hst : wsStateNoNewline st = true) :
    (squashWSRuns st l).all (fun c => !isNewlineChar c) = true := by
  induction l generalizing st with
  | nil =>
    cases st with
    | noRun => simp [squashWSRuns]
    | one w => simpa [squashWSRuns, wsStateNoNewline] using hst
    | many => simp [squashWSRuns]; decide
  | cons c rest ih =>
    simp only [List.all_cons, Bool.and_eq_true] at hl
    obtain ⟨hc, hrest⟩ := hl
    cases st with
    | noRun =>
      by_cases h : isJSWhitespace c = true
      · simp only [squashWSRuns, h, if_true]
        exact ih (.one c) hrest (by simpa [wsStateNoNewline] using hc)
      · simp only [squashWSRuns, h, Bool.false_eq_true, if_false, List.all_cons,
          Bool.and_eq_true]
        exact ⟨hc, ih .noRun hrest rfl⟩
    | one w =>
      by_cases h : isJSWhitespace c = true
      · simp only [squashWSRuns, h, if_true]
        exact ih .many hrest rfl
      · simp only [squashWSRuns, h, Bool.false_eq_true, if_false, List.all_cons,
          Bool.and_eq_true]
        exact ⟨by simpa [wsStateNoNewline] using hst, hc, ih .noRun hrest rfl⟩
    | many =>
      by_cases h : isJSWhitespace c = true
      · simp only [squashWSRuns, h, if_true]
        exact ih .many hrest rfl
      · simp only [squashWSRuns, h, Bool.false_eq_true, if_false, List.all_cons,
          Bool.and_eq_true]
        exact ⟨by decide, hc, ih .noRun hrest rfl⟩

/-- The output of `squashWSRuns` never contains two adjacent whitespace
characters: every whitespace run of length ≥ 2 was collapsed. -/
theorem squashWSRuns_noTwoAdjacentWS (l : List Char) (st : WSRun) :
    noTwoAdjacentWS (squashWSRuns st l) = true := by
  induction l generalizing st with
  | nil =>
    cases st with
    | noRun => simp [squashWSRuns, noTwoAdjacentWS]
    | one w => simp [squashWSRuns, noTwoAdjacentWS, checkGap]
    | many => simp [squashWSRuns, noTwoAdjacentWS, checkGap]
  | cons c rest ih =>
    have hgap : ∀ (x : Char) (l' : List Char), isJSWhitespace c = false →
        checkGap x (c :: l') = true ∨ checkGap x (c :: l') = !(isJSWhitespace x) := by
      intro x l' hc
      simp [checkGap, hc]
    cases st with
    | noRun =>
      by_cases h : isJSWhitespace c = true
      · simp only [squashWSRuns, h, if_true]
        exact ih (.one c)
      · simp only [squashWSRuns, h, Bool.false_eq_true, if_false]
        simp only [noTwoAdjacentWS, Bool.and_eq_true]
        refine ⟨?_, ih .noRun⟩
        cases hout : squashWSRuns WSRun.noRun rest with
        | nil => simp [checkGap]
        | cons d tl => simp [checkGap, h]
    | one w =>
      by_cases h : isJSWhitespace c = true
      · simp only [squashWSRuns, h, if_true]
        exact ih .many
      · simp only [squashWSRuns, h, Bool.false_eq_true, if_false]
        simp only [noTwoAdjacentWS, Bool.and_eq_true]
        refine ⟨by simp [checkGap, h], ?_, ih .noRun⟩
        cases hout : squashWSRuns WSRun.noRun rest with
        | nil => simp [checkGap]
        | cons d tl => simp [checkGap, h]
    | many =>
      by_cases h : isJSWhitespace c = true
      · simp only [squashWSRuns, h, if_true]
        exact ih .many
      · simp only [squashWSRuns, h, Bool.false_eq_true, if_false]
        simp only [noTwoAdjacentWS, Bool.and_eq_true]
        refine ⟨by simp [checkGap, h], ?_, ih .noRun⟩
        cases hout : squashWSRuns WSRun.noRun rest with
        | nil => simp [checkGap]
        | cons d tl => simp [checkGap, h]

/-- Cleaning a non-empty chunk yields a non-empty result: the very first
input character always produces at least one output character. -/
theorem squashNewlineRuns_ne_nil (c : Char) (rest : List Char) :
    squashNewlineRuns false (c :: rest) ≠ [] := by
  by_cases h : isNewlineChar c = true <;> simp [squashNewlineRuns, h]

theorem squashWSRuns_ne_nil_of_run (l : List Char) (st : WSRun)
    (hst : st ≠ .noRun) : squashWSRuns st l ≠ [] := by
  induction l generalizing st with
  | nil =>
    cases st with
    | noRun => exact absurd rfl hst
    | one w => simp [squashWSRuns]
    | many => simp [squashWSRuns]
  | cons c rest ih =>
    cases st with
    | noRun => exact absurd rfl hst
    | one w =>
      by_cases h : isJSWhitespace c = true <;>
        simp only [squashWSRuns, h, Bool.false_eq_true, if_true, if_false]
      · exact ih .many (by intro hc; cases hc)
      · simp
    | many =>
      by_cases h : isJSWhitespace c = true <;>
        simp only [squashWSRuns, h, Bool.false_eq_true, if_true, if_false]
      · exact ih .many (by intro hc; cases hc)
      · simp

theorem squashWSRuns_ne_nil (c : Char) (rest : List Char) :
    squashWSRuns .noRun (c :: rest) ≠ [] := by
  by_cases h : isJSWhitespace c = true <;>
    simp only [squashWSRuns, h, Bool.false_eq_true, if_true, if_false]
  · exact squashWSRuns_ne_nil_of_run rest (.one c) (by intro hc; cases hc)
  · simp

/-- The cleaning never turns a non-empty chunk into an empty one. -/
theorem cleanChunk_eq_empty_iff (s : String) : cleanChunk s = "" ↔ s = "" := by
  constructor
  · intro h
    cases s with
    | mk data =>
      cases data with
      | nil => rfl
      | cons c rest =>
        exfalso
        have h1 : squashWSRuns .noRun (squashNewlineRuns false (c :: rest)) = [] := by
          have := congrArg String.data h
          simpa [cleanChunk] using this
        cases h2 : squashNewlineRuns false (c :: rest) with
        | nil => exact squashNewlineRuns_ne_nil c rest h2
        | cons d tl =>
          rw [h2] at h1
          exact squashWSRuns_ne_nil d tl h1
  · intro h
    subst h
    rfl

/-! ## Basic facts about the document model -/

theorem emText_map_ch (s : String) :
    (emText s).map (fun pc => pc.ch) = s.data := by
  unfold emText
  rw [List.map_map]
  exact List.map_id s.data

theorem plainDoc_map_ch (s : String) :
    (plainDoc s).map (fun pc => pc.ch) = s.data := by
  unfold plainDoc
  rw [List.map_map]
  exact List.map_id s.data

theorem emText_length (s : String) : (emText s).length = s.length := by
  simp [emText]

theorem plainDoc_length (s : String) : (plainDoc s).length = s.length := by
  simp [plainDoc]

theorem emText_append (a b : String) : emText (a ++ b) = emText a ++ emText b := by
  simp [emText, String.data_append]

/-- Take at the exact junction of an append. -/
theorem take_append_exact {α : Type} (l1 l2 : List α) (n : Nat)
    (h : n = l1.length) : (l1 ++ l2).take n = l1 := by
  subst h
  exact List.take_left l1 l2

/-- Drop at the exact junction of an append. -/
theorem drop_append_exact {α : Type} (l1 l2 : List α) (n : Nat)
    (h : n = l1.length) : (l1 ++ l2).drop n = l2 := by
  subst h
  exact List.drop_left l1 l2

/-- Deleting up to `doc.content.size - 1` is truncation at the start
position. -/
theorem deleteRange_docEnd (a : Nat) (d : RTDoc) :
    deleteRange a (docEndPos d) d = d.take (a - 1) := by
  unfold deleteRange docEndPos
  have h : (d.drop (a - 1)).drop (d.length + 1 - a) = [] := by
    apply List.drop_eq_nil_of_le
    simp only [List.length_drop]
    omega
  rw [h, List.append_nil]

/-- Removing marks does not change the plain characters. -/
theorem removeEmRange_map_ch (a b : Nat) (d : RTDoc) :
    (removeEmRange a b d).map (fun pc => pc.ch) = d.map (fun pc => pc.ch) := by
  have hcomp : ∀ l : RTDoc,
      (l.map clearEm).map (fun pc => pc.ch) = l.map (fun pc => pc.ch) := by
    intro l
    rw [List.map_map]
    rfl
  have hd : d = d.take (a - 1) ++
      ((d.drop (a - 1)).take (b - a) ++ (d.drop (a - 1)).drop (b - a)) := by
    rw [List.take_append_drop, List.take_append_drop]
  calc (removeEmRange a b d).map (fun pc => pc.ch)
      = (d.take (a - 1)).map (fun pc => pc.ch) ++
          (((d.drop (a - 1)).take (b - a)).map clearEm).map (fun pc => pc.ch) ++
          ((d.drop (a - 1)).drop (b - a)).map (fun pc => pc.ch) := by
        unfold removeEmRange
        rw [List.map_append, List.map_append]
    _ = (d.take (a - 1)).map (fun pc => pc.ch) ++
          ((d.drop (a - 1)).take (b - a)).map (fun pc => pc.ch) ++
          ((d.drop (a - 1)).drop (b - a)).map (fun pc => pc.ch) := by
        rw [hcomp]
    _ = d.map (fun pc => pc.ch) := by
        rw [List.append_assoc, ← List.map_append, ← List.map_append, ← hd]

/-- Calling `removeMark(a, doc.content.size - 1)` clears the mark on everything from
position `a` on and keeps the preceding characters (for `1 ≤ a`). -/
theorem removeEmRange_docEnd (a : Nat) (d : RTDoc) (ha : 1 ≤ a) :
    removeEmRange a (docEndPos d) d =
      d.take (a - 1) ++ (d.drop (a - 1)).map clearEm := by
  unfold removeEmRange docEndPos
  have h1 : (d.drop (a - 1)).take (d.length + 1 - a) = d.drop (a - 1) := by
    apply List.take_of_length_le
    simp only [List.length_drop]
    omega
  have h2 : (d.drop (a - 1)).drop (d.length + 1 - a) = [] := by
    apply List.drop_eq_nil_of_le
    simp only [List.length_drop]
    omega
  rw [h1, h2, List.append_nil]

theorem insertContent_length (pos : Nat) (cs d : RTDoc) :
    (insertContent pos cs d).length = d.length + cs.length := by
  simp only [insertContent, List.length_append, List.length_take,
    List.length_drop]
  omega

/-- The effective insert position
`insertPos + L - (L > 0 ? L : 0)` always equals `insertPos`. -/
theorem effPos_eq (ip L : Nat) :
    ip + L - (if 0 < L then L else 0) = ip := by
  by_cases h : 0 < L
  · simp [h]
  · simp only [h, if_false]
    omega

/-! ## Unfolding the streaming-insertion effect -/

theorem appendApiChunk_some (raw : String) (s : EditorSt) (p : Nat)
    (hp : s.aiTextStartPos = some p) (hraw : raw ≠ "") :
    appendApiChunk raw s =
      { s with
        doc := insertContent (p + s.lastInsertedLength)
          (emText (cleanChunk raw)) s.doc
        aiTextStartPos := some p
        lastInsertedLength := s.lastInsertedLength + raw.length } := by
  have hne : cleanChunk raw ≠ "" := by
    rw [Ne, cleanChunk_eq_empty_iff]
    exact hraw
  unfold appendApiChunk
  simp only [hne, hp, if_true, ite_not, if_neg hne]
  rw [effPos_eq (p + s.lastInsertedLength) s.lastInsertedLength]
  simp

theorem appendApiChunk_none (raw : String) (s : EditorSt)
    (hp : s.aiTextStartPos = none) (hraw : raw ≠ "") :
    appendApiChunk raw s =
      { s with
        doc := insertContent s.selFrom (emText (cleanChunk raw)) s.doc
        aiTextStartPos := some s.selFrom
        lastInsertedLength := s.lastInsertedLength + raw.length } := by
  have hne : cleanChunk raw ≠ "" := by
    rw [Ne, cleanChunk_eq_empty_iff]
    exact hraw
  unfold appendApiChunk
  simp only [hne, hp, ite_not, if_neg hne]
  rw [effPos_eq s.selFrom s.lastInsertedLength]
  simp

theorem appendApiChunk_empty (s : EditorSt) : appendApiChunk "" s = s := rfl

/-- If the effect leaves the anchor unset, no insertion happened: the arrived
delta was empty. -/
theorem appendApiChunk_anchor_none (raw : String) (s : EditorSt)
    (h : (appendApiChunk raw s).aiTextStartPos = none) :
    s.aiTextStartPos = none ∧ raw = "" := by
  by_cases hraw : raw = ""
  · subst hraw
    rw [appendApiChunk_empty] at h
    exact ⟨h, rfl⟩
  · exfalso
    cases hp : s.aiTextStartPos with
    | some p => rw [appendApiChunk_some raw s p hp hraw] at h; cases h
    | none => rw [appendApiChunk_none raw s hp hraw] at h; cases h

/-- In every reachable state, an unset anchor means the whole session state
is clear: nothing was inserted and no replaced selection is remembered. -/
theorem reachable_no_anchor_clear (s : EditorSt) (hr : Reachable s)
    (hp : s.aiTextStartPos = none) :
    s.lastInsertedLength = 0 ∧ s.isReplacingSelection = false ∧
      s.originalText = "" := by
  induction hr with
  | init d f t => exact ⟨rfl, rfl, rfl⟩
  | step ev s hr ih =>
    cases ev with
    | chunk raw =>
      obtain ⟨hnone, hraw⟩ := appendApiChunk_anchor_none raw s hp
      subst hraw
      rw [show stepEd (Ev.chunk "") s = s from appendApiChunk_empty s] at hp ⊢
      exact ih hp
    | accept =>
      cases hsp : s.aiTextStartPos <;>
        simp [stepEd, resetApiText, handleAccept, hsp]
    | reject =>
      cases hsp : s.aiTextStartPos <;>
        simp [stepEd, resetApiText, handleReject, hsp]
    | modifyIntent =>
      cases hsp : s.aiTextStartPos with
      | none =>
        have hs : stepEd Ev.modifyIntent s = resetApiText s := by
          simp [stepEd, handleModify, hsp]
        rw [hs] at hp ⊢
        obtain ⟨hL, hrepl, horig⟩ := ih hp
        exact ⟨rfl, hrepl, horig⟩
      | some p =>
        have hs : (stepEd Ev.modifyIntent s).aiTextStartPos = some p := by
          simp [stepEd, resetApiText, handleModify, hsp]
        rw [hp] at hs
        cases hs
    | selectAi =>
      by_cases hsel : textBetween s.selFrom s.selTo s.doc ≠ ""
      · have hs : (stepEd Ev.selectAi s).aiTextStartPos = some s.selFrom := by
          simp [stepEd, handleSelectionAiAction, hsel]
        rw [hp] at hs
        cases hs
      · have hs : stepEd Ev.selectAi s = s := by
          simp only [stepEd, handleSelectionAiAction]
          rw [if_neg hsel]
        rw [hs] at hp ⊢
        exact ih hp
    | reset =>
      have hp2 : s.aiTextStartPos = none := hp
      obtain ⟨hL, hrepl, horig⟩ := ih hp2
      exact ⟨rfl, hrepl, horig⟩
    | userEdit d f t =>
      have hp2 : s.aiTextStartPos = none := hp
      obtain ⟨hL, hrepl, horig⟩ := ih hp2
      exact ⟨hL, hrepl, horig⟩

/-- One clean (already whitespace-normal) delta extends the accumulated
session text. -/
theorem appendApiChunk_shape (d0 : RTDoc) (p : Nat) (acc : String)
    (s : EditorSt) (f : String) (hs : SessionShape d0 p acc s)
    (hf : cleanChunk f = f) :
    SessionShape d0 p (acc ++ f) (appendApiChunk f s) := by
  obtain ⟨hp, hL, hdoc, hp1, hplen⟩ := hs
  by_cases hfe : f = ""
  · subst hfe
    rw [appendApiChunk_empty]
    rw [String.append_empty]
    exact ⟨hp, hL, hdoc, hp1, hplen⟩
  · rw [appendApiChunk_some f s p hp hfe, hf]
    have htlen : (d0.take (p - 1)).length = p - 1 := by
      rw [List.length_take]
      omega
    have hjunct : (d0.take (p - 1) ++ emText acc).length =
        p + acc.length - 1 := by
      rw [List.length_append, htlen, emText_length]
      omega
    refine ⟨rfl, ?_, ?_, hp1, hplen⟩
    · simp only [String.length_append]
      omega
    · show insertContent (p + s.lastInsertedLength) (emText f) s.doc =
        d0.take (p - 1) ++ emText (acc ++ f) ++ d0.drop (p - 1)
      rw [hdoc, hL]
      unfold insertContent
      rw [take_append_exact (d0.take (p - 1) ++ emText acc) (d0.drop (p - 1))
        (p + acc.length - 1) hjunct.symm]
      rw [drop_append_exact (d0.take (p - 1) ++ emText acc) (d0.drop (p - 1))
        (p + acc.length - 1) hjunct.symm]
      rw [emText_append]
      simp [List.append_assoc]

/-- Folding a list of clean deltas extends the accumulated session text by
their concatenation. -/
theorem applyChunks_shape (fs : List String) (d0 : RTDoc) (p : Nat)
    (acc : String) (s : EditorSt) (hs : SessionShape d0 p acc s)
    (hfs : ∀ f ∈ fs, cleanChunk f = f) :
    SessionShape d0 p (acc ++ joinAll fs) (applyChunks fs s) := by
  induction fs generalizing acc s with
  | nil =>
    rw [show joinAll [] = "" from rfl, String.append_empty]
    exact hs
  | cons f rest ih =>
    have hstep := appendApiChunk_shape d0 p acc s f hs
      (hfs f (List.mem_cons_self f rest))
    have hrest := ih (acc ++ f) (appendApiChunk f s) hstep
      (fun g hg => hfs g (List.mem_cons_of_mem f hg))
    rw [show applyChunks (f :: rest) s =
      applyChunks rest (appendApiChunk f s) from rfl]
    rw [show joinAll (f :: rest) = f ++ joinAll rest from rfl,
      ← String.append_assoc]
    exact hrest

/-- The first non-empty clean delta of a session whose anchor is unset
creates the session shape at the selection start. -/
theorem appendApiChunk_shape_start (s : EditorSt) (f : String)
    (hf : cleanChunk f = f) (hfne : f ≠ "")
    (hp : s.aiTextStartPos = none) (hL : s.lastInsertedLength = 0)
    (hq : 1 ≤ s.selFrom) (hqlen : s.selFrom - 1 ≤ s.doc.length) :
    SessionShape s.doc s.selFrom f (appendApiChunk f s) := by
  rw [appendApiChunk_none f s hp hfne, hf]
  refine ⟨rfl, ?_, ?_, hq, hqlen⟩
  · simp [hL]
  · show insertContent s.selFrom (emText f) s.doc =
      s.doc.take (s.selFrom - 1) ++ emText f ++ s.doc.drop (s.selFrom - 1)
    rfl

/-- Applying any sequence of clean deltas to an idle-session state either
creates the accumulated session shape, or every delta was empty and nothing
changed. -/
theorem applyChunks_from_none (fs : List String) (s : EditorSt)
    (hfs : ∀ f ∈ fs, cleanChunk f = f)
    (hp : s.aiTextStartPos = none) (hL : s.lastInsertedLength = 0)
    (hq : 1 ≤ s.selFrom) (hqlen : s.selFrom - 1 ≤ s.doc.length) :
    SessionShape s.doc s.selFrom (joinAll fs) (applyChunks fs s) ∨
    (joinAll fs = "" ∧ applyChunks fs s = s) := by
  induction fs with
  | nil => exact Or.inr ⟨rfl, rfl⟩
  | cons f rest ih =>
    by_cases hfe : f = ""
    · subst hfe
      have hcons : applyChunks ("" :: rest) s = applyChunks rest s := by
        rw [show applyChunks ("" :: rest) s =
          applyChunks rest (appendApiChunk "" s) from rfl, appendApiChunk_empty]
      have hjoin : joinAll ("" :: rest) = joinAll rest := by
        rw [show joinAll ("" :: rest) = "" ++ joinAll rest from rfl,
          String.empty_append]
      rw [hcons, hjoin]
      exact ih (fun g hg => hfs g (List.mem_cons_of_mem "" hg))
    · have hstart := appendApiChunk_shape_start s f
        (hfs f (List.mem_cons_self f rest)) hfe hp hL hq hqlen
      have hrest := applyChunks_shape rest s.doc s.selFrom f
        (appendApiChunk f s) hstart
        (fun g hg => hfs g (List.mem_cons_of_mem f hg))
      rw [show applyChunks (f :: rest) s =
        applyChunks rest (appendApiChunk f s) from rfl]
      rw [show joinAll (f :: rest) = f ++ joinAll rest from rfl]
      exact Or.inl hrest

/-- The accumulated text can be read back from the session's range. -/
theorem shape_textBetween (d0 : RTDoc) (p : Nat) (acc : String)
    (s : EditorSt) (hs : SessionShape d0 p acc s) :
    textBetween p (p + acc.length) s.doc = acc := by
  obtain ⟨hp, hL, hdoc, hp1, hplen⟩ := hs
  have htlen : (d0.take (p - 1)).length = p - 1 := by
    rw [List.length_take]
    omega
  unfold textBetween
  rw [hdoc, List.append_assoc]
  rw [drop_append_exact (d0.take (p - 1)) (emText acc ++ d0.drop (p - 1))
    (p - 1) htlen.symm]
  rw [take_append_exact (emText acc) (d0.drop (p - 1))
    (p + acc.length - p) (by rw [emText_length]; omega)]
  rw [emText_map_ch]

/-! ## Prefix stability of the streaming insertion

Every insertion of a session anchored at `p` happens at index
`p + L - 1 ≥ p - 1`, so the document part strictly before the anchor is
never touched, whatever the deltas contain. -/

theorem appendApiChunk_track (raw : String) (s : EditorSt) (p : Nat)
    (hp : s.aiTextStartPos = some p) (hlen : p - 1 ≤ s.doc.length) :
    (appendApiChunk raw s).aiTextStartPos = some p ∧
    (appendApiChunk raw s).isReplacingSelection = s.isReplacingSelection ∧
    (appendApiChunk raw s).originalText = s.originalText ∧
    p - 1 ≤ (appendApiChunk raw s).doc.length ∧
    (appendApiChunk raw s).doc.take (p - 1) = s.doc.take (p - 1) := by
  by_cases hraw : raw = ""
  · subst hraw
    rw [appendApiChunk_empty]
    exact ⟨hp, rfl, rfl, hlen, rfl⟩
  · rw [appendApiChunk_some raw s p hp hraw]
    have htklen : p - 1 ≤ (s.doc.take (p + s.lastInsertedLength - 1)).length := by
      rw [List.length_take]
      omega
    refine ⟨rfl, rfl, rfl, ?_, ?_⟩
    · show p - 1 ≤ (insertContent (p + s.lastInsertedLength)
        (emText (cleanChunk raw)) s.doc).length
      rw [insertContent_length]
      omega
    · show (insertContent (p + s.lastInsertedLength)
        (emText (cleanChunk raw)) s.doc).take (p - 1) = s.doc.take (p - 1)
      unfold insertContent
      rw [List.take_append_of_le_length
        (by rw [List.length_append]; omega :
          p - 1 ≤ (s.doc.take (p + s.lastInsertedLength - 1) ++
            emText (cleanChunk raw)).length)]
      rw [List.take_append_of_le_length htklen]
      rw [List.take_take]
      congr 1
      omega

theorem applyChunks_track (fs : List String) (s : EditorSt) (p : Nat)
    (hp : s.aiTextStartPos = some p) (hlen : p - 1 ≤ s.doc.length) :
    (applyChunks fs s).aiTextStartPos = some p ∧
    (applyChunks fs s).isReplacingSelection = s.isReplacingSelection ∧
    (applyChunks fs s).originalText = s.originalText ∧
    p - 1 ≤ (applyChunks fs s).doc.length ∧
    (applyChunks fs s).doc.take (p - 1) = s.doc.take (p - 1) := by
  induction fs generalizing s with
  | nil => exact ⟨hp, rfl, rfl, hlen, rfl⟩
  | cons f rest ih =>
    obtain ⟨h1, h2, h3, h4, h5⟩ := appendApiChunk_track f s p hp hlen
    obtain ⟨g1, g2, g3, g4, g5⟩ := ih (appendApiChunk f s) h1 h4
    rw [show applyChunks (f :: rest) s =
      applyChunks rest (appendApiChunk f s) from rfl]
    exact ⟨g1, g2.trans h2, g3.trans h3, g4, g5.trans h5⟩

/-! ## Unfolding the handlers -/

theorem handleSelectionAiAction_pos (s : EditorSt)
    (hsel : textBetween s.selFrom s.selTo s.doc ≠ "") :
    handleSelectionAiAction s =
      { s with
        isReplacingSelection := true
        originalText := textBetween s.selFrom s.selTo s.doc
        doc := deleteRange s.selFrom s.selTo s.doc
        selTo := s.selFrom
        aiTextStartPos := some s.selFrom
        lastInsertedLength := 0 } := by
  unfold handleSelectionAiAction
  rw [if_pos hsel]

theorem handleModify_some (s : EditorSt) (p : Nat)
    (hp : s.aiTextStartPos = some p) :
    handleModify s =
      { s with doc := deleteRange p (docEndPos s.doc) s.doc,
               lastInsertedLength := 0 } := by
  unfold handleModify
  rw [hp]

theorem handleAccept_some (s : EditorSt) (p : Nat)
    (hp : s.aiTextStartPos = some p) :
    handleAccept s =
      { s with doc := removeEmRange p (docEndPos s.doc) s.doc,
               aiTextStartPos := none, isReplacingSelection := false,
               originalText := "" } := by
  unfold handleAccept
  rw [hp]

theorem handleReject_some_replace (s : EditorSt) (p : Nat)
    (hp : s.aiTextStartPos = some p) (hrepl : s.isReplacingSelection = true)
    (horig : s.originalText ≠ "") :
    handleReject s =
      { s with
        doc := insertContent p (plainDoc s.originalText)
          (deleteRange p (docEndPos s.doc) s.doc)
        aiTextStartPos := none
        lastInsertedLength := 0
        isReplacingSelection := false
        originalText := "" } := by
  unfold handleReject
  rw [hp]
  simp [hrepl, horig]

/-- Accepting never changes the plain characters of the document. -/
theorem handleAccept_map_ch (s : EditorSt) :
    (handleAccept s).doc.map (fun pc => pc.ch) =
      s.doc.map (fun pc => pc.ch) := by
  cases hp : s.aiTextStartPos with
  | some p =>
    rw [handleAccept_some s p hp]
    exact removeEmRange_map_ch p (docEndPos s.doc) s.doc
  | none =>
    unfold handleAccept
    rw [hp]

/-- Equal plain characters yield equal `textBetween` everywhere. -/
theorem textBetween_congr (a b : Nat) (d e : RTDoc)
    (h : d.map (fun pc => pc.ch) = e.map (fun pc => pc.ch)) :
    textBetween a b d = textBetween a b e := by
  unfold textBetween
  have hx : ((d.drop (a - 1)).take (b - a)).map (fun pc => pc.ch) =
      ((e.drop (a - 1)).take (b - a)).map (fun pc => pc.ch) := by
    rw [List.map_take, List.map_drop, h, ← List.map_drop, ← List.map_take]
  rw [hx]

/-- Reading a range that starts exactly where appended content begins. -/
theorem textBetween_append_at (P B : RTDoc) (q n : Nat)
    (hP : P.length = q - 1) (hB : B.length = n) :
    textBetween q (q + n) (P ++ B) = ⟨B.map (fun pc => pc.ch)⟩ := by
  unfold textBetween
  rw [drop_append_exact P B (q - 1) hP.symm]
  have harith : q + n - q = n := by omega
  rw [harith, List.take_of_length_le (le_of_eq hB)]

/-! ## The claims -/

/-- Claim C1: For every session started by `generateOnSelection` with original
selected text `t` and every sequence of appended fragments, invoking reject
deletes the inserted range and re-inserts `t` at `startPosition`, so the
document text at the original range equals exactly `t` afterwards.  Here
`t = textBetween selFrom selTo doc` is the selection the action was invoked
on (non-empty, as required by the handler's guard). -/
theorem reject_restores_selection (s : EditorSt) (fs : List String)
    (horig : textBetween s.selFrom s.selTo s.doc ≠ "")
    (hq : 1 ≤ s.selFrom) (hqlen : s.selFrom - 1 ≤ s.doc.length) :
    textBetween s.selFrom
      (s.selFrom + (textBetween s.selFrom s.selTo s.doc).length)
      ((handleReject (applyChunks fs (handleSelectionAiAction s))).doc) =
    textBetween s.selFrom s.selTo s.doc := by
  have hs1 := handleSelectionAiAction_pos s horig
  have hs1len : s.selFrom - 1 ≤ (handleSelectionAiAction s).doc.length := by
    rw [hs1]
    show s.selFrom - 1 ≤ (deleteRange s.selFrom s.selTo s.doc).length
    unfold deleteRange
    rw [List.length_append, List.length_take]
    omega
  have hs1p : (handleSelectionAiAction s).aiTextStartPos = some s.selFrom := by
    rw [hs1]
  obtain ⟨g1, g2, g3, g4, g5⟩ :=
    applyChunks_track fs (handleSelectionAiAction s) s.selFrom hs1p hs1len
  have hrej := handleReject_some_replace
    (applyChunks fs (handleSelectionAiAction s)) s.selFrom g1
    (by rw [g2, hs1]) (by rw [g3, hs1]; exact horig)
  have horigeq : (applyChunks fs (handleSelectionAiAction s)).originalText =
      textBetween s.selFrom s.selTo s.doc := by
    rw [g3, hs1]
  -- the document part strictly before the anchor is the original prefix
  have hpfx : (applyChunks fs (handleSelectionAiAction s)).doc.take
      (s.selFrom - 1) = s.doc.take (s.selFrom - 1) := by
    rw [g5, hs1]
    show (deleteRange s.selFrom s.selTo s.doc).take (s.selFrom - 1) =
      s.doc.take (s.selFrom - 1)
    unfold deleteRange
    rw [List.take_append_of_le_length (by rw [List.length_take]; omega),
      List.take_take]
    congr 1
    omega
  have hpfxlen : ((applyChunks fs (handleSelectionAiAction s)).doc.take
      (s.selFrom - 1)).length = s.selFrom - 1 := by
    rw [List.length_take]
    omega
  rw [hrej]
  show textBetween s.selFrom
      (s.selFrom + (textBetween s.selFrom s.selTo s.doc).length)
      (insertContent s.selFrom
        (plainDoc (applyChunks fs (handleSelectionAiAction s)).originalText)
        (deleteRange s.selFrom
          (docEndPos (applyChunks fs (handleSelectionAiAction s)).doc)
          (applyChunks fs (handleSelectionAiAction s)).doc)) =
    textBetween s.selFrom s.selTo s.doc
  rw [deleteRange_docEnd, horigeq]
  unfold insertContent
  rw [List.take_take, Nat.min_self,
    List.drop_eq_nil_of_le (le_of_eq (by rw [List.length_take]; omega)),
    List.append_nil]
  rw [textBetween_append_at _ _ _ _ hpfxlen (plainDoc_length _),
    plainDoc_map_ch]

/-- Claim C1 witness:  `generateOnSelection` on "hello world", fragments
"it " and "is sunny" appended, then reject: the original range reads
"hello world" again. -/
theorem reject_restores_selection_witness :
    textBetween 1 12 c1St.doc ≠ "" ∧
    textBetween 1 (1 + (textBetween 1 12 c1St.doc).length)
      ((handleReject (applyChunks ["it ", "is sunny"]
        (handleSelectionAiAction c1St))).doc) =
      textBetween 1 12 c1St.doc :=
  ⟨by decide,
   reject_restores_selection c1St ["it ", "is sunny"] (by decide) (by decide)
     (by decide)⟩

/-- Claim C2 counterexample:  A delta containing a double space — reachable,
since the adapter cleans each remote chunk separately and two
space-terminated/space-initial chunks meet in the accumulated `apiText` —
is re-normalized by the editor before insertion (`Editor.tsx` line 339), so
the accepted text "a b" differs from the concatenation "a  b" of the
delivered fragments. -/
theorem accept_concat_cex :
    joinAll ["a  b"] = "a  b" ∧
    textBetween 1 (1 + ("a  b" : String).length)
      ((handleAccept (applyChunks ["a  b"] c2St)).doc) = "a b" ∧
    ("a b" : String) ≠ "a  b" := by
  decide

/-- Claim C2 amended:  For every accepted session all of whose delivered
fragments are whitespace-normal (fixed points of the editor's cleaning —
which holds in particular for every single-character fragment the adapter
emits), the final plain text of the session's range equals the exact
concatenation, in arrival order, of the fragments delivered before stream
completion or cancellation. -/
theorem accept_concat_clean (fs : List String) (s : EditorSt)
    (hfs : ∀ f ∈ fs, cleanChunk f = f)
    (hp : s.aiTextStartPos = none) (hL : s.lastInsertedLength = 0)
    (hq : 1 ≤ s.selFrom) (hqlen : s.selFrom - 1 ≤ s.doc.length) :
    textBetween s.selFrom (s.selFrom + (joinAll fs).length)
      ((handleAccept (applyChunks fs s)).doc) = joinAll fs := by
  rcases applyChunks_from_none fs s hfs hp hL hq hqlen with hshape | ⟨hjoin, heq⟩
  · have htb := shape_textBetween s.doc s.selFrom (joinAll fs)
      (applyChunks fs s) hshape
    rw [textBetween_congr _ _ _ _ (handleAccept_map_ch (applyChunks fs s))]
    exact htb
  · rw [heq, hjoin]
    show textBetween s.selFrom (s.selFrom + ("" : String).length)
      ((handleAccept s).doc) = ""
    unfold textBetween
    have h0 : ("" : String).length = 0 := rfl
    have harith : s.selFrom + ("" : String).length - s.selFrom = 0 := by
      rw [h0]
      omega
    rw [harith]
    rfl

/-- Claim C2 witness:  Clean fragments "it " and "is sunny": the accepted
session's range reads "it is sunny". -/
theorem accept_concat_clean_witness :
    (∀ f ∈ (["it ", "is sunny"] : List String), cleanChunk f = f) ∧
    textBetween 1 (1 + (joinAll ["it ", "is sunny"]).length)
      ((handleAccept (applyChunks ["it ", "is sunny"] c2wSt)).doc) =
      joinAll ["it ", "is sunny"] :=
  ⟨by decide,
   accept_concat_clean ["it ", "is sunny"] c2wSt (by decide) rfl rfl
     (by decide) (by decide)⟩

/-- Claim C3:  For every session in `pendingDecision` whose anchor is
`startPosition = p` and whose accumulated range `acc` extends to the end of
the document (`doc = pre ++ acc` with `|pre| = p - 1`), invoking modify
deletes the accumulated range, resets `emittedLength` to 0, retains
`startPosition = p`, and the first fragment `c` appended by the new stream
is inserted starting at offset `p` — not at the prior `emittedLength`
offset. -/
theorem modify_preserves_anchor (s : EditorSt) (p : Nat) (pre acc : RTDoc)
    (c : String) (hp : s.aiTextStartPos = some p)
    (hdoc : s.doc = pre ++ acc) (hpre : pre.length = p - 1) (hp1 : 1 ≤ p)
    (hc : cleanChunk c = c) (hcne : c ≠ "") :
    (handleModify s).doc = pre ∧
    (handleModify s).aiTextStartPos = some p ∧
    (handleModify s).lastInsertedLength = 0 ∧
    textBetween p (p + c.length)
      ((appendApiChunk c (resetApiText (handleModify s))).doc) = c := by
  have hmod := handleModify_some s p hp
  have hdoc2 : (handleModify s).doc = pre := by
    rw [hmod]
    show deleteRange p (docEndPos s.doc) s.doc = pre
    rw [deleteRange_docEnd, hdoc]
    exact take_append_exact pre acc (p - 1) hpre.symm
  have hs3p : (resetApiText (handleModify s)).aiTextStartPos = some p := by
    rw [hmod]
    exact hp
  have hs3doc : (resetApiText (handleModify s)).doc = pre := hdoc2
  have hshape : SessionShape pre p c
      (appendApiChunk c (resetApiText (handleModify s))) := by
    rw [appendApiChunk_some c (resetApiText (handleModify s)) p hs3p hcne, hc]
    refine ⟨rfl, ?_, ?_, hp1, by omega⟩
    · show (resetApiText (handleModify s)).lastInsertedLength + c.length =
        c.length
      rw [show (resetApiText (handleModify s)).lastInsertedLength = 0 from rfl,
        Nat.zero_add]
    · show insertContent
        (p + (resetApiText (handleModify s)).lastInsertedLength) (emText c)
        (resetApiText (handleModify s)).doc =
        pre.take (p - 1) ++ emText c ++ pre.drop (p - 1)
      rw [hs3doc,
        show (resetApiText (handleModify s)).lastInsertedLength = 0 from rfl,
        Nat.add_zero]
      rfl
  refine ⟨hdoc2, by rw [hmod]; exact hp, by rw [hmod], ?_⟩
  exact shape_textBetween pre p c _ hshape

/-- Claim C3 witness:  The spec's example: anchor 10, modify, then fragment
"ok" lands at offset 10. -/
theorem modify_preserves_anchor_witness :
    (handleModify c3St).doc = plainDoc "123456789" ∧
    (handleModify c3St).aiTextStartPos = some 10 ∧
    (handleModify c3St).lastInsertedLength = 0 ∧
    textBetween 10 (10 + ("ok" : String).length)
      ((appendApiChunk "ok" (resetApiText (handleModify c3St))).doc) = "ok" :=
  modify_preserves_anchor c3St 10 (plainDoc "123456789") (emText "OLD") "ok"
    (by decide) (by decide) (by decide) (by decide) (by decide) (by decide)

/-- Claim C4:  For every non-empty delta delivered to an active session, the
insertion point is exactly `startPosition + emittedLength` — with
`startPosition` lazily established from the current cursor/selection start
on the very first fragment — the inserted text carries the `em`
("generated") mark, and `emittedLength` grows by the fragment's length. -/
theorem append_fragment_spec (s : EditorSt) (raw : String) (hraw : raw ≠ "") :
    (appendApiChunk raw s).lastInsertedLength =
      s.lastInsertedLength + raw.length ∧
    (∀ p, s.aiTextStartPos = some p →
      appendApiChunk raw s = { s with
        doc := insertContent (p + s.lastInsertedLength)
          (emText (cleanChunk raw)) s.doc
        aiTextStartPos := some p
        lastInsertedLength := s.lastInsertedLength + raw.length }) ∧
    (s.aiTextStartPos = none →
      appendApiChunk raw s = { s with
        doc := insertContent s.selFrom (emText (cleanChunk raw)) s.doc
        aiTextStartPos := some s.selFrom
        lastInsertedLength := s.lastInsertedLength + raw.length }) := by
  refine ⟨?_, fun p hp => appendApiChunk_some raw s p hp hraw,
    fun hp => appendApiChunk_none raw s hp hraw⟩
  cases hp : s.aiTextStartPos with
  | some p => rw [appendApiChunk_some raw s p hp hraw]
  | none => rw [appendApiChunk_none raw s hp hraw]

/-- Claim C4 witness:  The next fragment " there" is inserted at
`1 + 2 = 3` with the `em` mark and the counter grows by 6. -/
theorem append_fragment_spec_witness :
    (appendApiChunk " there" c4St).lastInsertedLength = 2 + 6 ∧
    appendApiChunk " there" c4St = { c4St with
      doc := insertContent (1 + 2) (emText (cleanChunk " there")) c4St.doc
      aiTextStartPos := some 1
      lastInsertedLength := 2 + 6 } :=
  ⟨(append_fragment_spec c4St " there" (by decide)).1,
   (append_fragment_spec c4St " there" (by decide)).2.1 1 rfl⟩

/-- Claim C5 counterexample:  Accept removes the `em` mark up to
`doc.content.size - 1`, i.e. to the end of the document, so the italic
character at position 3 — outside `[startPosition, startPosition +
emittedLength) = [1, 3)` — also loses its mark, contradicting "exactly the
range".  The plain text is unchanged. -/
theorem accept_mark_range_cex :
    (c5St.doc.drop 2).map (fun pc => pc.em) = [true] ∧
    ((handleAccept c5St).doc.drop 2).map (fun pc => pc.em) = [false] ∧
    plainText (handleAccept c5St).doc = plainText c5St.doc := by
  decide

/-- Claim C5 amended:  For every session with the anchor set, invoking
accept removes the `em` ("generated") mark from the whole range
`[startPosition, doc.content.size - 1)` — from the anchor to the end of the
document, not only `[startPosition, startPosition + emittedLength)` — and
leaves the document's plain text entirely unchanged everywhere; the session
refs are cleared. -/
theorem accept_removes_marks_to_doc_end (s : EditorSt) (p : Nat)
    (hp : s.aiTextStartPos = some p) (hp1 : 1 ≤ p) :
    (handleAccept s).doc =
      s.doc.take (p - 1) ++ (s.doc.drop (p - 1)).map clearEm ∧
    plainText (handleAccept s).doc = plainText s.doc ∧
    (handleAccept s).aiTextStartPos = none ∧
    (handleAccept s).isReplacingSelection = false ∧
    (handleAccept s).originalText = "" := by
  have hacc := handleAccept_some s p hp
  refine ⟨?_, ?_, by rw [hacc], by rw [hacc], by rw [hacc]⟩
  · rw [hacc]
    exact removeEmRange_docEnd p s.doc hp1
  · unfold plainText
    rw [handleAccept_map_ch]

/-- Claim C5 witness: -/
theorem accept_removes_marks_witness :
    (handleAccept c5wSt).doc =
      c5wSt.doc.take 1 ++ (c5wSt.doc.drop 1).map clearEm ∧
    plainText (handleAccept c5wSt).doc = plainText c5wSt.doc :=
  ⟨(accept_removes_marks_to_doc_end c5wSt 2 rfl (by decide)).1,
   (accept_removes_marks_to_doc_end c5wSt 2 rfl (by decide)).2.1⟩

/-- Claim C6:  When the user invokes an AI action on a selection, the original
selected text is captured (non-empty) strictly before the replacing
deletion: the stored `originalText` is the text of the *pre-deletion*
document.  The deletion is the single document edit performed —
the resulting document is exactly the old one with `[selFrom, selTo)`
removed — and in the same resulting state the session anchor is already
initialized at the deletion point, so no edit can intervene between
deletion and anchor establishment. -/
theorem selection_capture_atomic (s : EditorSt)
    (hsel : textBetween s.selFrom s.selTo s.doc ≠ "") :
    (handleSelectionAiAction s).originalText =
      textBetween s.selFrom s.selTo s.doc ∧
    (handleSelectionAiAction s).originalText ≠ "" ∧
    (handleSelectionAiAction s).isReplacingSelection = true ∧
    (handleSelectionAiAction s).doc = deleteRange s.selFrom s.selTo s.doc ∧
    (handleSelectionAiAction s).aiTextStartPos = some s.selFrom ∧
    (handleSelectionAiAction s).lastInsertedLength = 0 ∧
    (handleSelectionAiAction s).selFrom = s.selFrom ∧
    (handleSelectionAiAction s).selTo = s.selFrom := by
  rw [handleSelectionAiAction_pos s hsel]
  exact ⟨rfl, hsel, rfl, rfl, rfl, rfl, rfl, rfl⟩

/-- Claim C6 witness:  Selecting "bcde" (positions 2-6) and invoking the
action captures "bcde" before deleting it and anchors the session at 2. -/
theorem selection_capture_atomic_witness :
    (handleSelectionAiAction c6St).originalText = textBetween 2 6 c6St.doc ∧
    (handleSelectionAiAction c6St).doc = deleteRange 2 6 c6St.doc ∧
    (handleSelectionAiAction c6St).aiTextStartPos = some 2 :=
  ⟨(selection_capture_atomic c6St (by decide)).1,
   (selection_capture_atomic c6St (by decide)).2.2.2.1,
   (selection_capture_atomic c6St (by decide)).2.2.2.2.1⟩

/-- Claim C7 counterexample:  A selection-started session has its
`startPosition` assigned by `handleSelectionAiAction` itself, at the
deletion point, while `emittedLength = 0` — before any fragment at all, so
the anchor is not assigned "on the first non-empty fragment". -/
theorem anchor_before_first_fragment_cex :
    c7St.aiTextStartPos = none ∧
    (handleSelectionAiAction c7St).aiTextStartPos = some 1 ∧
    (handleSelectionAiAction c7St).lastInsertedLength = 0 := by
  decide

/-- Claim C7 amended:  Within any single session, `startPosition` is
assigned exactly once — on the first non-empty fragment for sessions
started without a selection, and at the selection deletion point for
selection-started sessions — and is never reassigned for the life of the
session: a streamed delta, a modify (which retains it), an `apiText` reset
and a user edit all preserve an already-set anchor. -/
theorem anchor_assigned_once (s : EditorSt) :
    (∀ p, s.aiTextStartPos = some p →
      (∀ raw, (appendApiChunk raw s).aiTextStartPos = some p) ∧
      (resetApiText (handleModify s)).aiTextStartPos = some p ∧
      (resetApiText s).aiTextStartPos = some p ∧
      (∀ d f t, (stepEd (.userEdit d f t) s).aiTextStartPos = some p)) ∧
    (s.aiTextStartPos = none → ∀ raw, raw ≠ "" →
      (appendApiChunk raw s).aiTextStartPos = some s.selFrom) := by
  constructor
  · intro p hp
    refine ⟨?_, ?_, hp, fun d f t => hp⟩
    · intro raw
      by_cases hraw : raw = ""
      · subst hraw
        rw [appendApiChunk_empty]
        exact hp
      · rw [appendApiChunk_some raw s p hp hraw]
    · rw [handleModify_some s p hp]
      exact hp
  · intro hp raw hraw
    rw [appendApiChunk_none raw s hp hraw]

/-- Claim C7 witness:  The anchor 5 survives a delta and a modify. -/
theorem anchor_assigned_once_witness :
    (appendApiChunk "yz" c7wSt).aiTextStartPos = some 5 ∧
    (resetApiText (handleModify c7wSt)).aiTextStartPos = some 5 :=
  ⟨((anchor_assigned_once c7wSt).1 5 rfl).1 "yz",
   ((anchor_assigned_once c7wSt).1 5 rfl).2.1⟩

/-- Claim C8:  If the stream fails after fragments accumulating to `acc` were
inserted, the system returns to `idle` with a surfaced error, the editor
state — document included — is untouched, and the session's range still
reads `acc` with every character still carrying the `em` ("generated")
mark: the partial text is not deleted or otherwise modified. -/
theorem stream_fail_safe (sys : SysSt) (msg : String) (d0 : RTDoc) (p : Nat)
    (acc : String) (hmode : sys.mode = .streaming)
    (hs : SessionShape d0 p acc sys.ed) :
    (streamFail msg sys).mode = .idle ∧
    (streamFail msg sys).error = some msg ∧
    (streamFail msg sys).ed = sys.ed ∧
    textBetween p (p + acc.length) (streamFail msg sys).ed.doc = acc ∧
    (((streamFail msg sys).ed.doc.drop (p - 1)).take acc.length).all
      (fun pc => pc.em) = true := by
  refine ⟨rfl, rfl, rfl, shape_textBetween d0 p acc sys.ed hs, ?_⟩
  obtain ⟨hp, hL, hdoc, hp1, hplen⟩ := hs
  show ((sys.ed.doc.drop (p - 1)).take acc.length).all
    (fun pc => pc.em) = true
  rw [hdoc, List.append_assoc,
    drop_append_exact _ _ _ (by rw [List.length_take]; omega),
    take_append_exact _ _ _ (emText_length acc).symm]
  simp [emText, List.all_map, Function.comp]

/-- Claim C8 witness: -/
theorem stream_fail_safe_witness :
    (streamFail "network error" c8Sys).mode = .idle ∧
    (streamFail "network error" c8Sys).error = some "network error" ∧
    (streamFail "network error" c8Sys).ed = c8Sys.ed ∧
    textBetween 1 (1 + ("hi" : String).length)
      (streamFail "network error" c8Sys).ed.doc = "hi" ∧
    (((streamFail "network error" c8Sys).ed.doc.drop 0).take
      ("hi" : String).length).all (fun pc => pc.em) = true :=
  stream_fail_safe c8Sys "network error" [] 1 "hi" rfl
    (by refine ⟨rfl, rfl, ?_, by decide, by decide⟩; decide)

/-- Claim C9:  Accept, reject or modify issued when no session anchor has
been established leaves the editor — the document in particular —
completely unchanged: by the reachability invariant nothing was ever
inserted (`emittedLength = 0`) and no session state is retained, so the
handlers' resets have no effect either. -/
theorem no_anchor_ops_are_noops (s : EditorSt) (hr : Reachable s)
    (hp : s.aiTextStartPos = none) :
    handleAccept s = s ∧ handleReject s = s ∧ handleModify s = s := by
  obtain ⟨hL, hrepl, horig⟩ := reachable_no_anchor_clear s hr hp
  cases s with
  | mk doc ai L repl orig f t =>
    dsimp only at hp hL hrepl horig
    subst hp hL hrepl horig
    exact ⟨rfl, rfl, rfl⟩

/-- Claim C9 witness:  On a fresh editor all three handlers are identities. -/
theorem no_anchor_ops_witness :
    handleAccept (initSt [] 1 1) = initSt [] 1 1 ∧
    handleReject (initSt [] 1 1) = initSt [] 1 1 ∧
    handleModify (initSt [] 1 1) = initSt [] 1 1 :=
  no_anchor_ops_are_noops (initSt [] 1 1) (Reachable.init [] 1 1) rfl

/-- Claim C10 counterexample:  A chunk "a\tb" has a (length-one) whitespace
run "\t"; the spec-worded normalization collapses it to a space, but the
adapter's `\s{2,}` replace leaves a lone tab untouched, so the emitted
fragments are "a", "\t", "b" — the tab is emitted, not a space. -/
theorem stream_normalization_cex :
    (generateContinuationStream ["a\tb"] none).1 = ["a", "\t", "b"] ∧
    specNormalize false ("a\tb".data) = "a b".data ∧
    (["a", "\t", "b"] : List String) ≠ ["a", " ", "b"] := by
  decide

/-- Claim C10 amended:  Every fragment produced by the Streaming Source
Adapter (`generateContinuationStream` and `modifyTextStream`) is a single
character of a cleaned chunk, emitted in order, where cleaning collapses
every newline run and every run of *two or more* whitespace characters to
a single space: emitted text contains no newline characters and never two
adjacent whitespace characters; a lone non-newline whitespace character
(e.g. a single tab) passes through unchanged. -/
theorem stream_fragments_normalized (chunks : List String)
    (failure : Option String) :
    (generateContinuationStream chunks failure).1 =
      (chunks.filter (fun c => c ≠ "")).flatMap
        (fun c => (cleanChunk c).data.map charFragment) ∧
    modifyTextStream chunks failure =
      generateContinuationStream chunks failure ∧
    (generateContinuationStream chunks failure).2 = failure ∧
    ∀ c : String,
      (cleanChunk c).data.all (fun ch => !isNewlineChar ch) = true ∧
      noTwoAdjacentWS (cleanChunk c).data = true := by
  refine ⟨rfl, rfl, rfl, fun c => ⟨?_, ?_⟩⟩
  · exact squashWSRuns_no_newline (squashNewlineRuns false c.data) .noRun
      (squashNewlineRuns_no_newline c.data false) rfl
  · exact squashWSRuns_noTwoAdjacentWS (squashNewlineRuns false c.data) .noRun

end Mvp
